import Mathlib

set_option linter.unusedSectionVars false

/-!
Verification of the chs-onboard machine-provisioning tool: the tool
dependency resolver (`resolveTools`), the phase classifier, the phase
execution engine (`runPhase`), run-state tracking, the guard-marked
`.zshrc` appends, simulate-only (dry-run) mode, the `--only` flag
handling, and the VPN transition gate.  Every definition is a shallow
embedding of the corresponding Go function of the repository; external
effects (installer bodies, executed commands, probe outcomes, pmset
output) are abstracted as parameters.
-/

/-- Tool identifiers: the `toolID` constants of installer.go. -/
inductive ToolID where
  | xcode | homebrew | pyenv | python313 | python396 | pyenv_venv_ncpcli
  | iterm2 | allproxy | sparta_pki | hops_cli | gnoc_helper | stencil
  | silencer | ncpcli | jit_pass
  deriving DecidableEq, Fintype

/-- `string(t)` for a toolID, as used for `--only` names and run-state keys. -/
def toolName : ToolID → String
  | .xcode => "xcode"
  | .homebrew => "homebrew"
  | .pyenv => "pyenv"
  | .python313 => "python313"
  | .python396 => "python396"
  | .pyenv_venv_ncpcli => "pyenv_venv_ncpcli"
  | .iterm2 => "iterm2"
  | .allproxy => "allproxy"
  | .sparta_pki => "sparta_pki"
  | .hops_cli => "hops_cli"
  | .gnoc_helper => "gnoc_helper"
  | .stencil => "stencil"
  | .silencer => "silencer"
  | .ncpcli => "ncpcli"
  | .jit_pass => "jit_pass"

/-- `depMap` of installer.go: each tool's required prerequisites, in the
declared order. -/
def depMap : ToolID → List ToolID
  | .xcode => []
  | .homebrew => [.xcode]
  | .pyenv => [.homebrew]
  | .python313 => [.pyenv]
  | .python396 => [.pyenv]
  | .pyenv_venv_ncpcli => [.python396]
  | .iterm2 => []
  | .allproxy => [.python313, .homebrew]
  | .sparta_pki => []
  | .hops_cli => [.python313, .sparta_pki]
  | .gnoc_helper => [.pyenv_venv_ncpcli, .allproxy]
  | .stencil => [.pyenv_venv_ncpcli]
  | .silencer => []
  | .ncpcli => [.pyenv_venv_ncpcli]
  | .jit_pass => []

/-- `phase1Tools` of installer.go: the tools installed before VPN is
required (the public-network phase set), as a Boolean membership
predicate (the Go map lookup `phase1Tools[t]`). -/
def phase1Tools : ToolID → Bool
  | .iterm2 => true
  | .xcode => true
  | .homebrew => true
  | .pyenv => true
  | .python313 => true
  | .python396 => true
  | .pyenv_venv_ncpcli => true
  | _ => false

/-- A topological rank for the repository's dependency graph: it
decreases across every `depMap` edge, witnessing that `depMap` is
acyclic. -/
def toolRank : ToolID → Nat
  | .xcode => 0
  | .iterm2 => 0
  | .sparta_pki => 0
  | .silencer => 0
  | .jit_pass => 0
  | .homebrew => 1
  | .pyenv => 2
  | .python313 => 3
  | .python396 => 3
  | .pyenv_venv_ncpcli => 4
  | .allproxy => 4
  | .hops_cli => 4
  | .gnoc_helper => 5
  | .stencil => 5
  | .ncpcli => 5

section Resolver

variable {α : Type} [DecidableEq α]

/-- The mutable state of `resolveTools`'s depth-first traversal: the
`visited` set (modelled as a list with membership) and the output
`order` being accumulated. -/
structure DfsState (α : Type) where
  visited : List α
  order : List α

/-- The recursive `visit` closure of `resolveTools` (installer.go):
skip if visited, otherwise mark visited, visit each declared
prerequisite in order, then append the tool to the output.  The Go
recursion has no fuel; `fuel` makes the recursion structural and is
irrelevant once it exceeds every reachable tool's rank. -/
def visit (deps : α → List α) : Nat → α → DfsState α → DfsState α
  | 0, _, s => s
  | fuel + 1, t, s =>
    if t ∈ s.visited then s
    else
      let s2 := (deps t).foldl (fun acc d => visit deps fuel d acc) ⟨t :: s.visited, s.order⟩
      ⟨s2.visited, s2.order ++ [t]⟩

/-- `resolveTools` of installer.go: a deduplicated, dependency-ordered
list for the requested tools, via depth-first traversal. -/
def resolveTools (deps : α → List α) (fuel : Nat) (requested : List α) : List α :=
  (requested.foldl (fun s t => visit deps fuel t s) ⟨[], []⟩).order

/-- `Reach deps t u`: `u` is `t` itself or a transitive prerequisite of
`t` through `deps` edges. -/
inductive Reach (deps : α → List α) : α → α → Prop
  | refl (t : α) : Reach deps t t
  | step {t d u : α} : d ∈ deps t → Reach deps d u → Reach deps t u

/-- Invariant of the DFS state: `P` is the set of tools currently being
visited (on the recursion stack, marked visited but not yet output). -/
def StInv (deps : α → List α) (P : List α) (s : DfsState α) : Prop :=
  s.order.Nodup ∧
  (∀ v, v ∈ s.visited ↔ (v ∈ s.order ∨ v ∈ P)) ∧
  (∀ v ∈ P, v ∉ s.order) ∧
  (∀ x ∈ s.order, ∀ d ∈ deps x, d ∈ s.order) ∧
  s.order.Pairwise (fun a b => b ∉ deps a)

/-- Postcondition of one `visit` call, relating input state `s` to
output state `r`. -/
def VisitOut (deps : α → List α) (t : α) (s r : DfsState α) : Prop :=
  (∃ ext, r.order = s.order ++ ext) ∧
  (∀ v ∈ s.visited, v ∈ r.visited) ∧
  t ∈ r.visited ∧
  (∀ u, Reach deps t u → u ∈ r.visited) ∧
  (∀ v ∈ r.visited, v ∈ s.visited ∨ Reach deps t v)

theorem reach_mem_of_closed {deps : α → List α} {l : List α}
    (hcl : ∀ x ∈ l, ∀ d ∈ deps x, d ∈ l) {t u : α}
    (ht : t ∈ l) (h : Reach deps t u) : u ∈ l := by
  induction h with
  | refl => exact ht
  | step hd _ ih => exact ih (hcl _ ht _ hd)

end Resolver

section ResolverSpec

variable {α : Type} [DecidableEq α]

theorem visit_succ (deps : α → List α) (fuel : Nat) (t : α) (s : DfsState α) :
    visit deps (fuel + 1) t s =
      if t ∈ s.visited then s
      else
        let s2 := (deps t).foldl (fun acc d => visit deps fuel d acc) ⟨t :: s.visited, s.order⟩
        ⟨s2.visited, s2.order ++ [t]⟩ := rfl

theorem visit_spec (deps : α → List α) (rank : α → Nat)
    (hrank : ∀ t, ∀ d ∈ deps t, rank d < rank t) :
    ∀ (fuel : Nat) (t : α) (P : List α) (s : DfsState α),
      rank t < fuel → (∀ v ∈ P, rank t < rank v) → StInv deps P s →
      StInv deps P (visit deps fuel t s) ∧ VisitOut deps t s (visit deps fuel t s) := by
  intro fuel
  induction fuel with
  | zero => intro t P s hf _ _; exact absurd hf (Nat.not_lt_zero _)
  | succ n ih =>
    intro t P s hf hP hinv
    obtain ⟨hnd, hiff, hdisj, hcl, hpw⟩ := hinv
    by_cases hvis : t ∈ s.visited
    · have hres : visit deps (n + 1) t s = s := by
        rw [visit_succ, if_pos hvis]
      rw [hres]
      have htord : t ∈ s.order := by
        rcases (hiff t).mp hvis with h | h
        · exact h
        · exact absurd (hP t h) (lt_irrefl _)
      refine ⟨⟨hnd, hiff, hdisj, hcl, hpw⟩, ⟨[], by simp⟩, fun v hv => hv, hvis, ?_,
        fun v hv => Or.inl hv⟩
      intro u hu
      exact (hiff u).mpr (Or.inl (reach_mem_of_closed hcl htord hu))
    · have htno : t ∉ s.order := fun h => hvis ((hiff t).mpr (Or.inl h))
      have hinv1 : StInv deps (t :: P) ⟨t :: s.visited, s.order⟩ := by
        refine ⟨hnd, ?_, ?_, hcl, hpw⟩
        · intro v
          simp only [List.mem_cons]
          rw [show (v ∈ s.visited ↔ v ∈ s.order ∨ v ∈ P) from hiff v] at *
          tauto
        · intro v hv
          rcases List.mem_cons.mp hv with rfl | hv'
          · exact htno
          · exact hdisj v hv'
      have hfold : ∀ (ds : List α) (s' : DfsState α),
          (∀ d ∈ ds, rank d < n) → (∀ d ∈ ds, ∀ v ∈ t :: P, rank d < rank v) →
          StInv deps (t :: P) s' →
          StInv deps (t :: P) (ds.foldl (fun acc d => visit deps n d acc) s') ∧
          (∃ ext, (ds.foldl (fun acc d => visit deps n d acc) s').order = s'.order ++ ext) ∧
          (∀ v ∈ s'.visited, v ∈ (ds.foldl (fun acc d => visit deps n d acc) s').visited) ∧
          (∀ d ∈ ds, d ∈ (ds.foldl (fun acc d => visit deps n d acc) s').visited) ∧
          (∀ u, (∃ d ∈ ds, Reach deps d u) →
            u ∈ (ds.foldl (fun acc d => visit deps n d acc) s').visited) ∧
          (∀ v ∈ (ds.foldl (fun acc d => visit deps n d acc) s').visited,
            v ∈ s'.visited ∨ ∃ d ∈ ds, Reach deps d v) := by
        intro ds
        induction ds with
        | nil =>
          intro s' _ _ hinv'
          exact ⟨hinv', ⟨[], by simp⟩, fun v hv => hv, by simp, by simp, fun v hv => Or.inl hv⟩
        | cons d ds ihds =>
          intro s' hds hPds hinv'
          have hd1 : rank d < n := hds d (List.mem_cons_self d ds)
          have hPd : ∀ v ∈ t :: P, rank d < rank v := hPds d (List.mem_cons_self d ds)
          obtain ⟨hinv1', ⟨e1, he1⟩, hmono1, htin1, hreach1, hsnd1⟩ :=
            ih d (t :: P) s' hd1 hPd hinv'
          simp only [List.foldl_cons]
          obtain ⟨hinv2, ⟨e2, he2⟩, hmono2, hdin2, hreach2, hsnd2⟩ :=
            ihds (visit deps n d s') (fun x hx => hds x (List.mem_cons_of_mem d hx))
              (fun x hx => hPds x (List.mem_cons_of_mem d hx)) hinv1'
          refine ⟨hinv2, ⟨e1 ++ e2, by rw [he2, he1, List.append_assoc]⟩,
            fun v hv => hmono2 v (hmono1 v hv), ?_, ?_, ?_⟩
          · intro x hx
            rcases List.mem_cons.mp hx with rfl | hx'
            · exact hmono2 x htin1
            · exact hdin2 x hx'
          · rintro u ⟨d0, hd0, hru⟩
            rcases List.mem_cons.mp hd0 with rfl | hd0'
            · exact hmono2 u (hreach1 u hru)
            · exact hreach2 u ⟨d0, hd0', hru⟩
          · intro v hv
            rcases hsnd2 v hv with hv1 | ⟨d0, hd0, hrv⟩
            · rcases hsnd1 v hv1 with h | h
              · exact Or.inl h
              · exact Or.inr ⟨d, List.mem_cons_self d ds, h⟩
            · exact Or.inr ⟨d0, List.mem_cons_of_mem d hd0, hrv⟩
      have hds : ∀ d ∈ deps t, rank d < n :=
        fun d hd => lt_of_lt_of_le (hrank t d hd) (Nat.lt_succ_iff.mp hf)
      have hPds : ∀ d ∈ deps t, ∀ v ∈ t :: P, rank d < rank v := by
        intro d hd v hv
        rcases List.mem_cons.mp hv with rfl | hv'
        · exact hrank v d hd
        · exact lt_trans (hrank t d hd) (hP v hv')
      have hres : visit deps (n + 1) t s =
          ⟨((deps t).foldl (fun acc d => visit deps n d acc) ⟨t :: s.visited, s.order⟩).visited,
            ((deps t).foldl (fun acc d => visit deps n d acc) ⟨t :: s.visited, s.order⟩).order
              ++ [t]⟩ := by
        rw [visit_succ, if_neg hvis]
      rw [hres]
      obtain ⟨⟨h2nd, h2iff, h2disj, h2cl, h2pw⟩, ⟨ext, hext⟩, h2mono, h2mem, h2reach, h2snd⟩ :=
        hfold (deps t) ⟨t :: s.visited, s.order⟩ hds hPds hinv1
      have htno2 : t ∉ ((deps t).foldl (fun acc d => visit deps n d acc)
          ⟨t :: s.visited, s.order⟩).order := h2disj t (List.mem_cons_self t P)
      constructor
      · refine ⟨?_, ?_, ?_, ?_, ?_⟩
        · rw [List.nodup_append]
          refine ⟨h2nd, List.nodup_singleton t, ?_⟩
          intro a ha hb
          rw [List.mem_singleton] at hb
          subst hb
          exact htno2 ha
        · intro v
          rw [show _ from h2iff v]
          simp only [List.mem_append, List.mem_singleton, List.mem_cons]
          tauto
        · intro v hv hmem
          rcases List.mem_append.mp hmem with h | h
          · exact h2disj v (List.mem_cons_of_mem t hv) h
          · rw [List.mem_singleton] at h
            subst h
            exact absurd (hP v hv) (lt_irrefl _)
        · intro x hx d hd
          rcases List.mem_append.mp hx with h | h
          · exact List.mem_append_left _ (h2cl x h d hd)
          · rw [List.mem_singleton] at h
            subst h
            have hdv := h2mem d hd
            rcases (h2iff d).mp hdv with h' | h'
            · exact List.mem_append_left _ h'
            · rcases List.mem_cons.mp h' with rfl | h''
              · exact absurd (hrank d d hd) (lt_irrefl _)
              · exact absurd (lt_trans (hrank x d hd) (hP d h'')) (lt_irrefl _)
        · rw [List.pairwise_append]
          refine ⟨h2pw, List.pairwise_singleton _ _, ?_⟩
          intro a ha b hb
          rw [List.mem_singleton] at hb
          subst hb
          intro hcontra
          exact htno2 (h2cl a ha b hcontra)
      · refine ⟨⟨ext ++ [t], ?_⟩, ?_, ?_, ?_, ?_⟩
        · show _ ++ [t] = s.order ++ (ext ++ [t])
          rw [hext, List.append_assoc]
        · exact fun v hv => h2mono v (List.mem_cons_of_mem t hv)
        · exact h2mono t (List.mem_cons_self t s.visited)
        · intro u hu
          cases hu with
          | refl => exact h2mono t (List.mem_cons_self t s.visited)
          | step hd hr => exact h2reach u ⟨_, hd, hr⟩
        · intro v hv
          rcases h2snd v hv with h | ⟨d0, hd0, hrv⟩
          · rcases List.mem_cons.mp h with rfl | h'
            · exact Or.inr (Reach.refl v)
            · exact Or.inl h'
          · exact Or.inr (Reach.step hd0 hrv)

end ResolverSpec

section ResolveCorollaries

variable {α : Type} [DecidableEq α]

theorem resolve_fold_spec (deps : α → List α) (rank : α → Nat)
    (hrank : ∀ t, ∀ d ∈ deps t, rank d < rank t) (fuel : Nat) :
    ∀ (req : List α) (s : DfsState α),
      (∀ t ∈ req, rank t < fuel) → StInv deps [] s →
      StInv deps [] (req.foldl (fun s t => visit deps fuel t s) s) ∧
      (∀ v ∈ s.visited, v ∈ (req.foldl (fun s t => visit deps fuel t s) s).visited) ∧
      (∀ t ∈ req, ∀ u, Reach deps t u →
        u ∈ (req.foldl (fun s t => visit deps fuel t s) s).visited) ∧
      (∀ v ∈ (req.foldl (fun s t => visit deps fuel t s) s).visited,
        v ∈ s.visited ∨ ∃ t ∈ req, Reach deps t v) := by
  intro req
  induction req with
  | nil => intro s _ hinv; exact ⟨hinv, fun v hv => hv, by simp, fun v hv => Or.inl hv⟩
  | cons t req ihreq =>
    intro s hreq hinv
    have ht : rank t < fuel := hreq t (List.mem_cons_self t req)
    obtain ⟨hinv1, ⟨e1, he1⟩, hmono1, htin1, hreach1, hsnd1⟩ :=
      visit_spec deps rank hrank fuel t [] s ht (by simp) hinv
    simp only [List.foldl_cons]
    obtain ⟨hinv2, hmono2, hreach2, hsnd2⟩ :=
      ihreq (visit deps fuel t s) (fun x hx => hreq x (List.mem_cons_of_mem t hx)) hinv1
    refine ⟨hinv2, fun v hv => hmono2 v (hmono1 v hv), ?_, ?_⟩
    · intro t0 ht0 u hu
      rcases List.mem_cons.mp ht0 with rfl | ht0'
      · exact hmono2 u (hreach1 u hu)
      · exact hreach2 t0 ht0' u hu
    · intro v hv
      rcases hsnd2 v hv with h | ⟨t0, ht0, hrv⟩
      · rcases hsnd1 v h with h' | h'
        · exact Or.inl h'
        · exact Or.inr ⟨t, List.mem_cons_self t req, h'⟩
      · exact Or.inr ⟨t0, List.mem_cons_of_mem t ht0, hrv⟩

theorem resolve_spec (deps : α → List α) (rank : α → Nat)
    (hrank : ∀ t, ∀ d ∈ deps t, rank d < rank t) (fuel : Nat) (requested : List α)
    (hfuel : ∀ t ∈ requested, rank t < fuel) :
    (resolveTools deps fuel requested).Nodup ∧
    (∀ x ∈ resolveTools deps fuel requested, ∀ d ∈ deps x,
      d ∈ resolveTools deps fuel requested) ∧
    (resolveTools deps fuel requested).Pairwise (fun a b => b ∉ deps a) ∧
    (∀ u, u ∈ resolveTools deps fuel requested ↔ ∃ t ∈ requested, Reach deps t u) := by
  have hinv0 : StInv deps ([] : List α) ⟨[], []⟩ := by
    refine ⟨List.nodup_nil, by simp, by simp, by simp, List.Pairwise.nil⟩
  obtain ⟨⟨hnd, hiff, hdisj, hcl, hpw⟩, hmono, hreach, hsnd⟩ :=
    resolve_fold_spec deps rank hrank fuel requested ⟨[], []⟩ hfuel hinv0
  have horder : ∀ v, v ∈ (requested.foldl (fun s t => visit deps fuel t s)
      (⟨[], []⟩ : DfsState α)).visited ↔
      v ∈ resolveTools deps fuel requested := by
    intro v
    rw [show _ from hiff v]
    simp [resolveTools]
  refine ⟨hnd, hcl, hpw, ?_⟩
  intro u
  constructor
  · intro hu
    rcases hsnd u ((horder u).mpr hu) with h | h
    · simp at h
    · exact h
  · rintro ⟨t, ht, hr⟩
    exact (horder u).mp (hreach t ht u hr)

/-- Position of the first occurrence of `a` in `l` (length of `l` if absent). -/
def posOf : List α → α → Nat
  | [], _ => 0
  | x :: xs, a => if x = a then 0 else posOf xs a + 1

theorem posOf_inj {l : List α} {a b : α} (ha : a ∈ l) (hb : b ∈ l)
    (h : posOf l a = posOf l b) : a = b := by
  induction l with
  | nil => cases ha
  | cons x xs ihl =>
    by_cases hxa : x = a
    · by_cases hxb : x = b
      · rw [← hxa, ← hxb]
      · rw [posOf, posOf, if_pos hxa, if_neg hxb] at h
        exact absurd h.symm (Nat.succ_ne_zero _)
    · by_cases hxb : x = b
      · rw [posOf, posOf, if_pos hxb, if_neg hxa] at h
        exact absurd h (Nat.succ_ne_zero _)
      · rw [posOf, posOf, if_neg hxa, if_neg hxb] at h
        exact ihl (List.mem_of_ne_of_mem (fun hh => hxa hh.symm) ha)
          (List.mem_of_ne_of_mem (fun hh => hxb hh.symm) hb) (Nat.succ_injective h)

theorem pairwise_posOf {R : α → α → Prop} {l : List α} (hpw : l.Pairwise R)
    {a b : α} (ha : a ∈ l) (hb : b ∈ l) (h : posOf l a < posOf l b) : R a b := by
  induction l with
  | nil => cases ha
  | cons x xs ihl =>
    obtain ⟨hx, hxs⟩ := List.pairwise_cons.mp hpw
    by_cases hxa : x = a
    · by_cases hxb : x = b
      · rw [posOf, posOf, if_pos hxa, if_pos hxb] at h
        exact absurd h (lt_irrefl 0)
      · subst hxa
        exact hx b (List.mem_of_ne_of_mem (fun hh => hxb hh.symm) hb)
    · by_cases hxb : x = b
      · rw [posOf, posOf, if_neg hxa, if_pos hxb] at h
        exact absurd h (Nat.not_lt_zero _)
      · rw [posOf, posOf, if_neg hxa, if_neg hxb] at h
        exact ihl hxs (List.mem_of_ne_of_mem (fun hh => hxa hh.symm) ha)
          (List.mem_of_ne_of_mem (fun hh => hxb hh.symm) hb) (Nat.succ_lt_succ_iff.mp h)

theorem topo_posOf {l : List α} {deps : α → List α}
    (hpw : l.Pairwise (fun a b => b ∉ deps a))
    {x d : α} (hx : x ∈ l) (hdin : d ∈ l) (hd : d ∈ deps x) (hne : d ≠ x) :
    posOf l d < posOf l x := by
  rcases Nat.lt_trichotomy (posOf l d) (posOf l x) with h | h | h
  · exact h
  · exact absurd (posOf_inj hdin hx h) hne
  · exact absurd hd (pairwise_posOf hpw hx hdin h)

end ResolveCorollaries

section ResolveIdem

variable {α : Type} [DecidableEq α]

theorem visit_noop (deps : α → List α) (fuel : Nat) (d : α) (s : DfsState α)
    (h : d ∈ s.visited) : visit deps fuel d s = s := by
  cases fuel with
  | zero => rfl
  | succ n => rw [visit_succ, if_pos h]

theorem foldl_visit_noop (deps : α → List α) (fuel : Nat) :
    ∀ (ds : List α) (s : DfsState α), (∀ d ∈ ds, d ∈ s.visited) →
      ds.foldl (fun acc d => visit deps fuel d acc) s = s := by
  intro ds
  induction ds with
  | nil => intro s _; rfl
  | cons d ds ihds =>
    intro s h
    simp only [List.foldl_cons]
    rw [visit_noop deps fuel d s (h d (List.mem_cons_self d ds))]
    exact ihds s (fun x hx => h x (List.mem_cons_of_mem d hx))

theorem resolve_fixed_fold (deps : α → List α) (m : Nat) :
    ∀ (rest pre : List α) (s : DfsState α),
      (pre ++ rest).Nodup →
      (∀ x ∈ pre ++ rest, ∀ d ∈ deps x, d ∈ pre ++ rest) →
      (pre ++ rest).Pairwise (fun a b => b ∉ deps a) →
      (∀ x ∈ pre ++ rest, x ∉ deps x) →
      (∀ v, v ∈ s.visited ↔ v ∈ pre) → s.order = pre →
      (rest.foldl (fun s t => visit deps (m + 1) t s) s).order = pre ++ rest := by
  intro rest
  induction rest with
  | nil => intro pre s _ _ _ _ _ hord; simpa using hord
  | cons t rest ihr =>
    intro pre s hnd hcl hpw hself hvis hord
    have htmem : t ∈ pre ++ t :: rest := List.mem_append_right _ (List.mem_cons_self t rest)
    obtain ⟨htnot, hnd2⟩ := List.nodup_cons.mp (List.nodup_middle.mp hnd)
    have htpre : t ∉ pre := fun h => htnot (List.mem_append_left _ h)
    have htvis : t ∉ s.visited := fun h => htpre ((hvis t).mp h)
    have hdeps : ∀ d ∈ deps t, d ∈ s.visited := by
      intro d hd
      have hdl : d ∈ pre ++ t :: rest := hcl t htmem d hd
      rcases List.mem_append.mp hdl with h | h
      · exact (hvis d).mpr h
      · rcases List.mem_cons.mp h with rfl | h'
        · exact absurd hd (hself _ htmem)
        · have hpw2 := (List.pairwise_append.mp hpw).2.1
          exact absurd hd ((List.pairwise_cons.mp hpw2).1 d h')
    have hstep : visit deps (m + 1) t s = ⟨t :: s.visited, pre ++ [t]⟩ := by
      rw [visit_succ, if_neg htvis]
      show (⟨((deps t).foldl (fun acc d => visit deps m d acc)
            ⟨t :: s.visited, s.order⟩).visited,
          ((deps t).foldl (fun acc d => visit deps m d acc)
            ⟨t :: s.visited, s.order⟩).order ++ [t]⟩ : DfsState α) =
        ⟨t :: s.visited, pre ++ [t]⟩
      rw [foldl_visit_noop deps m (deps t) ⟨t :: s.visited, s.order⟩
        (fun d hd => List.mem_cons_of_mem t (hdeps d hd))]
      rw [hord]
    simp only [List.foldl_cons, hstep]
    have hre : pre ++ t :: rest = (pre ++ [t]) ++ rest := by simp
    rw [hre] at hnd hcl hpw hself ⊢
    refine ihr (pre ++ [t]) ⟨t :: s.visited, pre ++ [t]⟩ hnd hcl hpw hself ?_ rfl
    intro v
    show v ∈ t :: s.visited ↔ v ∈ pre ++ [t]
    rw [List.mem_cons, show (v ∈ s.visited ↔ v ∈ pre) from hvis v]
    simp only [List.mem_append, List.mem_singleton]
    tauto

theorem resolve_zero (deps : α → List α) (requested : List α) :
    resolveTools deps 0 requested = [] := by
  have hfold : ∀ (req : List α) (s : DfsState α),
      req.foldl (fun s t => visit deps 0 t s) s = s := by
    intro req
    induction req with
    | nil => intro s; rfl
    | cons t req ihreq =>
      intro s
      simp only [List.foldl_cons]
      exact ihreq (visit deps 0 t s)
  rw [resolveTools, hfold]

end ResolveIdem

/-- Claim C1: for every acyclic dependency graph — acyclicity witnessed by a
rank function decreasing across every dependency edge — and every requested
sequence of tool identifiers (possibly with duplicates and missing
prerequisites), the output of `resolveTools` (with sufficient fuel) contains
each requested tool and each of its transitive prerequisites (`Reach`) exactly
once, and every tool in the output appears strictly after all of its
prerequisites. -/
theorem resolveTools_topological {α : Type} [DecidableEq α]
    (deps : α → List α) (rank : α → Nat)
    (hrank : ∀ t, ∀ d ∈ deps t, rank d < rank t) (fuel : Nat) (requested : List α)
    (hfuel : ∀ t ∈ requested, rank t < fuel) :
    (∀ u, u ∈ resolveTools deps fuel requested ↔ ∃ t ∈ requested, Reach deps t u) ∧
    (∀ u, (∃ t ∈ requested, Reach deps t u) →
      (resolveTools deps fuel requested).count u = 1) ∧
    (∀ x ∈ resolveTools deps fuel requested, ∀ d ∈ deps x,
      d ∈ resolveTools deps fuel requested ∧
        posOf (resolveTools deps fuel requested) d <
          posOf (resolveTools deps fuel requested) x) := by
  obtain ⟨hnd, hcl, hpw, hmem⟩ := resolve_spec deps rank hrank fuel requested hfuel
  refine ⟨hmem, ?_, ?_⟩
  · intro u hu
    exact List.count_eq_one_of_mem hnd ((hmem u).mpr hu)
  · intro x hx d hd
    have hdin := hcl x hx d hd
    have hne : d ≠ x := by
      intro h
      subst h
      exact absurd (hrank d d hd) (lt_irrefl _)
    exact ⟨hdin, topo_posOf hpw hx hdin hd hne⟩

/-- Witness for C1: the repository's own dependency graph `depMap` with its
rank function, fuel 16 and the request `[gnoc_helper, hops_cli]`. -/
theorem resolveTools_topological_witness :
    (∀ t, ∀ d ∈ depMap t, toolRank d < toolRank t) ∧
    (∀ t ∈ [ToolID.gnoc_helper, ToolID.hops_cli], toolRank t < 16) ∧
    ((∀ u, u ∈ resolveTools depMap 16 [ToolID.gnoc_helper, ToolID.hops_cli] ↔
        ∃ t ∈ [ToolID.gnoc_helper, ToolID.hops_cli], Reach depMap t u) ∧
      (∀ u, (∃ t ∈ [ToolID.gnoc_helper, ToolID.hops_cli], Reach depMap t u) →
        (resolveTools depMap 16 [ToolID.gnoc_helper, ToolID.hops_cli]).count u = 1) ∧
      (∀ x ∈ resolveTools depMap 16 [ToolID.gnoc_helper, ToolID.hops_cli],
        ∀ d ∈ depMap x,
          d ∈ resolveTools depMap 16 [ToolID.gnoc_helper, ToolID.hops_cli] ∧
            posOf (resolveTools depMap 16 [ToolID.gnoc_helper, ToolID.hops_cli]) d <
              posOf (resolveTools depMap 16 [ToolID.gnoc_helper, ToolID.hops_cli]) x)) :=
  ⟨by decide, by decide,
    resolveTools_topological depMap toolRank (by decide) 16
      [ToolID.gnoc_helper, ToolID.hops_cli] (by decide)⟩

/-- Claim C9: `resolveTools` is idempotent as a sequence transformer: feeding
its output back in as the requested sequence yields the identical sequence. -/
theorem resolveTools_idempotent {α : Type} [DecidableEq α]
    (deps : α → List α) (rank : α → Nat)
    (hrank : ∀ t, ∀ d ∈ deps t, rank d < rank t) (fuel : Nat) (requested : List α)
    (hfuel : ∀ t ∈ requested, rank t < fuel) :
    resolveTools deps fuel (resolveTools deps fuel requested) =
      resolveTools deps fuel requested := by
  cases fuel with
  | zero => rw [resolve_zero, resolve_zero]
  | succ m =>
    obtain ⟨hnd, hcl, hpw, _⟩ := resolve_spec deps rank hrank (m + 1) requested hfuel
    have hself : ∀ x ∈ resolveTools deps (m + 1) requested, x ∉ deps x :=
      fun x _ hx => absurd (hrank x x hx) (lt_irrefl _)
    have hres := resolve_fixed_fold deps m (resolveTools deps (m + 1) requested) [] ⟨[], []⟩
      hnd hcl hpw hself (by simp) rfl
    simpa [resolveTools] using hres

/-- Witness for C9: the repository's dependency graph, fuel 16 and the
request `[gnoc_helper]`. -/
theorem resolveTools_idempotent_witness :
    (∀ t, ∀ d ∈ depMap t, toolRank d < toolRank t) ∧
    (∀ t ∈ [ToolID.gnoc_helper], toolRank t < 16) ∧
    resolveTools depMap 16 (resolveTools depMap 16 [ToolID.gnoc_helper]) =
      resolveTools depMap 16 [ToolID.gnoc_helper] :=
  ⟨by decide, by decide,
    resolveTools_idempotent depMap toolRank (by decide) 16 [ToolID.gnoc_helper] (by decide)⟩

/-- The phase-split loop of main.go: walk the resolved plan in order and
append each tool to the phase-1 (public) list when `phase1Tools[t]`, else to
the phase-3 (private) list. -/
def classify (tools : List ToolID) : List ToolID × List ToolID :=
  tools.foldl
    (fun acc t => if phase1Tools t then (acc.1 ++ [t], acc.2) else (acc.1, acc.2 ++ [t]))
    ([], [])

theorem classify_fold (tools : List ToolID) :
    ∀ acc : List ToolID × List ToolID,
      tools.foldl
        (fun acc t => if phase1Tools t then (acc.1 ++ [t], acc.2) else (acc.1, acc.2 ++ [t]))
        acc =
      (acc.1 ++ tools.filter phase1Tools,
        acc.2 ++ tools.filter (fun t => !phase1Tools t)) := by
  induction tools with
  | nil => intro acc; simp
  | cons t tools ihl =>
    intro acc
    cases h : phase1Tools t with
    | true =>
      simp only [List.foldl_cons, h, if_true, ihl, List.filter_cons]
      simp [h]
    | false =>
      simp only [List.foldl_cons, h, if_false, ihl, List.filter_cons]
      simp [h]

theorem classify_eq (tools : List ToolID) :
    classify tools =
      (tools.filter phase1Tools, tools.filter (fun t => !phase1Tools t)) := by
  rw [classify, classify_fold]
  simp

/-- Claim C4: the phase classification splits a plan into a public-phase and a
private-phase sequence such that every tool of the plan appears in exactly one
of the two outputs, relative order within each output equals relative order in
the plan (each output is a sublist of the plan), and every tool not in the
static public-phase set lands in the private-phase sequence. -/
theorem classify_partition (tools : List ToolID) :
    ((classify tools).1.Sublist tools ∧ (classify tools).2.Sublist tools) ∧
    (∀ t, t ∈ tools ↔ (t ∈ (classify tools).1 ∨ t ∈ (classify tools).2)) ∧
    (∀ t, ¬(t ∈ (classify tools).1 ∧ t ∈ (classify tools).2)) ∧
    (∀ t ∈ tools, phase1Tools t = false → t ∈ (classify tools).2) := by
  rw [classify_eq]
  refine ⟨⟨List.filter_sublist _, List.filter_sublist _⟩, ?_, ?_, ?_⟩
  · intro t
    cases h : phase1Tools t <;> simp [List.mem_filter, h]
  · intro t
    cases h : phase1Tools t <;> simp [List.mem_filter, h]
  · intro t ht hf
    simp [List.mem_filter, ht, hf]

/-- Witness for C4: the partition properties at the concrete plan
`[iterm2, xcode, sparta_pki]`. -/
theorem classify_partition_witness :
    (((classify [ToolID.iterm2, ToolID.xcode, ToolID.sparta_pki]).1.Sublist
        [ToolID.iterm2, ToolID.xcode, ToolID.sparta_pki] ∧
      (classify [ToolID.iterm2, ToolID.xcode, ToolID.sparta_pki]).2.Sublist
        [ToolID.iterm2, ToolID.xcode, ToolID.sparta_pki]) ∧
    (∀ t, t ∈ [ToolID.iterm2, ToolID.xcode, ToolID.sparta_pki] ↔
      (t ∈ (classify [ToolID.iterm2, ToolID.xcode, ToolID.sparta_pki]).1 ∨
        t ∈ (classify [ToolID.iterm2, ToolID.xcode, ToolID.sparta_pki]).2)) ∧
    (∀ t, ¬(t ∈ (classify [ToolID.iterm2, ToolID.xcode, ToolID.sparta_pki]).1 ∧
        t ∈ (classify [ToolID.iterm2, ToolID.xcode, ToolID.sparta_pki]).2)) ∧
    (∀ t ∈ [ToolID.iterm2, ToolID.xcode, ToolID.sparta_pki], phase1Tools t = false →
      t ∈ (classify [ToolID.iterm2, ToolID.xcode, ToolID.sparta_pki]).2)) :=
  classify_partition [ToolID.iterm2, ToolID.xcode, ToolID.sparta_pki]

/-- Claim C10: in the static catalog every prerequisite of a public-phase tool
is itself public-phase; consequently, for every resolved plan, the
concatenation of the public-phase sequence followed by the private-phase
sequence still places every tool strictly after all of its prerequisites. -/
theorem phase_split_respects_deps :
    (∀ t, phase1Tools t = true → ∀ d ∈ depMap t, phase1Tools d = true) ∧
    (∀ requested : List ToolID,
      ∀ x ∈ (classify (resolveTools depMap 16 requested)).1 ++
          (classify (resolveTools depMap 16 requested)).2,
        ∀ d ∈ depMap x,
          d ∈ (classify (resolveTools depMap 16 requested)).1 ++
              (classify (resolveTools depMap 16 requested)).2 ∧
            posOf ((classify (resolveTools depMap 16 requested)).1 ++
                (classify (resolveTools depMap 16 requested)).2) d <
              posOf ((classify (resolveTools depMap 16 requested)).1 ++
                (classify (resolveTools depMap 16 requested)).2) x) := by
  have hclosed : ∀ t, phase1Tools t = true → ∀ d ∈ depMap t, phase1Tools d = true := by
    decide
  have hrkdec : ∀ t, ∀ d ∈ depMap t, toolRank d < toolRank t := by decide
  have hrk16 : ∀ t : ToolID, toolRank t < 16 := by decide
  refine ⟨hclosed, ?_⟩
  intro requested
  obtain ⟨hnd, hcl, hpw, _⟩ :=
    resolve_spec depMap toolRank hrkdec 16 requested (fun t _ => hrk16 t)
  simp only [classify_eq]
  set plan := resolveTools depMap 16 requested with hplan
  have hmemc : ∀ v, v ∈ plan.filter phase1Tools ++
      plan.filter (fun t => !phase1Tools t) ↔ v ∈ plan := by
    intro v
    rw [List.mem_append, List.mem_filter, List.mem_filter]
    cases h : phase1Tools v <;> simp [h]
  have hpwc : (plan.filter phase1Tools ++
      plan.filter (fun t => !phase1Tools t)).Pairwise (fun a b => b ∉ depMap a) := by
    rw [List.pairwise_append]
    refine ⟨List.Pairwise.sublist (List.filter_sublist _) hpw,
      List.Pairwise.sublist (List.filter_sublist _) hpw, ?_⟩
    intro a ha b hb hmem
    obtain ⟨_, hpa⟩ := List.mem_filter.mp ha
    obtain ⟨_, hpb⟩ := List.mem_filter.mp hb
    have := hclosed a hpa b hmem
    simp [this] at hpb
  intro x hx d hd
  have hxp : x ∈ plan := (hmemc x).mp hx
  have hdp : d ∈ plan := hcl x hxp d hd
  have hdc : d ∈ plan.filter phase1Tools ++ plan.filter (fun t => !phase1Tools t) :=
    (hmemc d).mpr hdp
  have hne : d ≠ x := by
    intro h
    subst h
    exact absurd (hrkdec d d hd) (lt_irrefl _)
  exact ⟨hdc, topo_posOf hpwc hx hdc hd hne⟩

/-- Witness for C10: the concatenated phase split of the resolved plan for
`[gnoc_helper]` places each tool after its prerequisites. -/
theorem phase_split_respects_deps_witness :
    ∀ x ∈ (classify (resolveTools depMap 16 [ToolID.gnoc_helper])).1 ++
        (classify (resolveTools depMap 16 [ToolID.gnoc_helper])).2,
      ∀ d ∈ depMap x,
        d ∈ (classify (resolveTools depMap 16 [ToolID.gnoc_helper])).1 ++
            (classify (resolveTools depMap 16 [ToolID.gnoc_helper])).2 ∧
          posOf ((classify (resolveTools depMap 16 [ToolID.gnoc_helper])).1 ++
              (classify (resolveTools depMap 16 [ToolID.gnoc_helper])).2) d <
            posOf ((classify (resolveTools depMap 16 [ToolID.gnoc_helper])).1 ++
                (classify (resolveTools depMap 16 [ToolID.gnoc_helper])).2) x :=
  phase_split_respects_deps.2 [ToolID.gnoc_helper]

/-- Run state persisted in `~/.chs-onboard/state.json` (the `runState` Go
struct): tool name → completion timestamp, modelled as an association list
with first-match lookup (the Go map operations used are lookup and insert). -/
structure RunState where
  completedTools : List (String × String)
  deriving DecidableEq

/-- `isToolCompleted` of main.go: whether the run state records `t`. -/
def isToolCompleted (st : RunState) (t : ToolID) : Bool :=
  (st.completedTools.lookup (toolName t)).isSome

/-- `markToolCompleted` of main.go: record tool `t` as completed at timestamp
`now` (map insertion, modelled as a lookup-biased cons) and persist. -/
def markToolCompleted (st : RunState) (t : ToolID) (now : String) : RunState :=
  ⟨(toolName t, now) :: st.completedTools⟩

/-- The machine state visible to the pipeline: the `~/.zshrc` contents, the
persisted run state, and an abstract remainder `σ` of the machine
(filesystem, installed artifacts, …). -/
structure World (σ : Type) where
  zshrc : List Char
  runState : RunState
  mach : σ

section Engine

variable {σ : Type}

/-- Abstract semantics of the per-tool installers of the registry: given the
operator identity string, an installer transforms the world and reports
success or a descriptive failure.  The concrete installer bodies shell out to
external commands, so they are parameters of the model. -/
def Inst (σ : Type) : Type :=
  ToolID → String → World σ → World σ × Except String Unit

/-- `runTool` of installer.go: in dry-run mode log and return success before
dispatching to any installer, otherwise dispatch on the tool id.  The middle
component records which installers were actually dispatched. -/
def runTool (dryRun : Bool) (inst : Inst σ) (t : ToolID) (guid : String)
    (w : World σ) : World σ × List ToolID × Except String Unit :=
  if dryRun then (w, [], .ok ())
  else ((inst t guid w).1, [t], (inst t guid w).2)

/-- `runPhase` of main.go: walk the ordered tool list, run each tool in
sequence, and abort with `<tool> failed: <err>` on the first failure. -/
def runPhase (dryRun : Bool) (inst : Inst σ) (tools : List ToolID) (guid : String)
    (w : World σ) : World σ × List ToolID × Except String Unit :=
  match tools with
  | [] => (w, [], .ok ())
  | t :: rest =>
    match (runTool dryRun inst t guid w).2.2 with
    | .error e =>
      ((runTool dryRun inst t guid w).1, (runTool dryRun inst t guid w).2.1,
        .error (toolName t ++ " failed: " ++ e))
    | .ok _ =>
      ((runPhase dryRun inst rest guid (runTool dryRun inst t guid w).1).1,
        (runTool dryRun inst t guid w).2.1 ++
          (runPhase dryRun inst rest guid (runTool dryRun inst t guid w).1).2.1,
        (runPhase dryRun inst rest guid (runTool dryRun inst t guid w).1).2.2)

end Engine

/-- Claim C3: if the installer for tool `t` in a phase fails, then no
installer for any tool later in the phase sequence is invoked (the dispatched
installers are exactly the tools up to and including `t`), the phase returns a
failure result, and run state records completion only for tools strictly
before the failed one. -/
theorem runPhase_failfast {σ : Type} (inst : Inst σ) (guid : String)
    (pre : List ToolID) (t : ToolID) (post : List ToolID) (w0 : World σ)
    (hpre : ∀ x ∈ pre, ∀ w : World σ, (inst x guid w).2 = .ok ())
    (hfail : ∀ w : World σ, ∃ e, (inst t guid w).2 = .error e)
    (hstate : ∀ x g (w : World σ), ((inst x g w).1).runState = w.runState) :
    (runPhase false inst (pre ++ t :: post) guid w0).2.1 = pre ++ [t] ∧
    (∃ e, (runPhase false inst (pre ++ t :: post) guid w0).2.2 = .error e) ∧
    (∀ x, isToolCompleted (runPhase false inst (pre ++ t :: post) guid w0).1.runState x =
        true →
      isToolCompleted w0.runState x = true ∨ x ∈ pre) := by
  have key : ∀ (p : List ToolID) (w : World σ),
      (∀ x ∈ p, ∀ w' : World σ, (inst x guid w').2 = .ok ()) →
      (runPhase false inst (p ++ t :: post) guid w).2.1 = p ++ [t] ∧
      (∃ e, (runPhase false inst (p ++ t :: post) guid w).2.2 = .error e) ∧
      (runPhase false inst (p ++ t :: post) guid w).1.runState = w.runState := by
    intro p
    induction p with
    | nil =>
      intro w _
      obtain ⟨e, he⟩ := hfail w
      simp [runPhase, runTool, he, hstate]
    | cons x p ihp =>
      intro w hok
      have hx : (inst x guid w).2 = .ok () :=
        hok x (List.mem_cons_self x p) w
      obtain ⟨h1, h2, h3⟩ :=
        ihp ((inst x guid w).1) (fun y hy w' => hok y (List.mem_cons_of_mem x hy) w')
      simp only [List.cons_append, runPhase, runTool, Bool.false_eq_true, if_false, hx,
        List.append_eq, List.nil_append]
      refine ⟨by rw [h1], h2, by rw [h3, hstate]⟩
  obtain ⟨h1, h2, h3⟩ := key pre w0 hpre
  refine ⟨h1, h2, fun x hx => Or.inl ?_⟩
  rw [← h3]
  exact hx

/-- A concrete installer semantics for witnesses: `xcode` succeeds, every
other tool fails; the world is untouched. -/
def instXcodeOnly : Inst Unit :=
  fun t _ w => (w, if t = ToolID.xcode then .ok () else .error "boom")

/-- Witness for C3: in the phase `[xcode, homebrew, pyenv]` under
`instXcodeOnly`, only `xcode` and the failing `homebrew` are dispatched, the
phase fails, and the (empty) run state gains no completion record. -/
theorem runPhase_failfast_witness :
    (runPhase false instXcodeOnly [ToolID.xcode, ToolID.homebrew, ToolID.pyenv] "guid"
        ⟨[], ⟨[]⟩, ()⟩).2.1 = [ToolID.xcode] ++ [ToolID.homebrew] ∧
    (∃ e, (runPhase false instXcodeOnly [ToolID.xcode, ToolID.homebrew, ToolID.pyenv]
        "guid" ⟨[], ⟨[]⟩, ()⟩).2.2 = .error e) ∧
    (∀ x, isToolCompleted (runPhase false instXcodeOnly
          [ToolID.xcode, ToolID.homebrew, ToolID.pyenv] "guid"
          ⟨[], ⟨[]⟩, ()⟩).1.runState x = true →
      isToolCompleted (⟨[]⟩ : RunState) x = true ∨ x ∈ [ToolID.xcode]) :=
  runPhase_failfast instXcodeOnly "guid" [ToolID.xcode] ToolID.homebrew [ToolID.pyenv]
    ⟨[], ⟨[]⟩, ()⟩
    (by
      intro x hx w
      have hx' : x = ToolID.xcode := by simpa using hx
      subst hx'
      simp [instXcodeOnly])
    (fun w => ⟨"boom", by simp [instXcodeOnly]⟩)
    (fun x g w => rfl)

/-- A concrete installer semantics that always succeeds without touching the
world. -/
def instAlwaysOk : Inst Unit := fun _ _ w => (w, .ok ())

/-- Claim C2 (code defect): the phase execution engine of main.go neither
consults nor updates the persisted run state.  With `xcode` already recorded
completed (and the force-reinstall flag never read anywhere), its installer is
dispatched anyway instead of being skipped; and after a successful install of
`iterm2` the run state is left unchanged instead of the tool being marked
completed via `markToolCompleted` (which, like `isToolCompleted`, is defined
but never called). -/
theorem runPhase_ignores_runState :
    (isToolCompleted ⟨[("xcode", "2026-02-01T00:00:00Z")]⟩ ToolID.xcode = true ∧
      (runPhase false instAlwaysOk [ToolID.xcode] "guid"
        ⟨[], ⟨[("xcode", "2026-02-01T00:00:00Z")]⟩, ()⟩).2.1 = [ToolID.xcode]) ∧
    ((runPhase false instAlwaysOk [ToolID.iterm2] "guid"
        ⟨[], ⟨[]⟩, ()⟩).2.2 = .ok () ∧
      isToolCompleted (runPhase false instAlwaysOk [ToolID.iterm2] "guid"
        ⟨[], ⟨[]⟩, ()⟩).1.runState ToolID.iterm2 = false ∧
      ¬((runPhase false instAlwaysOk [ToolID.iterm2] "guid"
        ⟨[], ⟨[]⟩, ()⟩).1.runState =
        markToolCompleted ⟨[]⟩ ToolID.iterm2 "2026-02-01T00:00:00Z")) := by
  refine ⟨⟨by decide, by decide⟩, ⟨rfl, by decide, by decide⟩⟩

/-- `fileContains` of the command helpers (`strings.Contains(data, substr)`)
on file contents modelled as character lists: `g` occurs as a contiguous
substring of `f`. -/
def fileContains : List Char → List Char → Bool
  | [], g => g.isPrefixOf []
  | c :: rest, g => g.isPrefixOf (c :: rest) || fileContains rest g

theorem isPrefixOf_append {g f b : List Char} (h : g.isPrefixOf f = true) :
    g.isPrefixOf (f ++ b) = true := by
  induction g generalizing f with
  | nil => simp [List.isPrefixOf]
  | cons c g ihg =>
    cases f with
    | nil => simp [List.isPrefixOf] at h
    | cons d f =>
      simp only [List.cons_append, List.isPrefixOf, Bool.and_eq_true] at h ⊢
      exact ⟨h.1, ihg h.2⟩

theorem fileContains_append_left {f b : List Char} (g : List Char)
    (h : fileContains f g = true) : fileContains (f ++ b) g = true := by
  induction f with
  | nil =>
    have hg : g = [] := by
      cases g with
      | nil => rfl
      | cons c cs => simp [fileContains, List.isPrefixOf] at h
    subst hg
    cases b <;> simp [fileContains, List.isPrefixOf]
  | cons c rest ihf =>
    simp only [List.cons_append, fileContains, Bool.or_eq_true] at h ⊢
    rcases h with h | h
    · exact Or.inl (isPrefixOf_append h)
    · exact Or.inr (ihf h)

theorem fileContains_append_right {b : List Char} (f g : List Char)
    (h : fileContains b g = true) : fileContains (f ++ b) g = true := by
  induction f with
  | nil => simpa using h
  | cons c rest ihf =>
    simp only [List.cons_append, fileContains, Bool.or_eq_true]
    exact Or.inr ihf

/-- `appendToZshrc` of the command helpers: append `"\n" + block + "\n"` to
the `.zshrc` contents only if `guardString` is not already present; in
dry-run mode, log and leave the file untouched.  Returns the new contents. -/
def appendToZshrc (dryRun : Bool) (guardString block zshrc : List Char) : List Char :=
  if fileContains zshrc guardString then zshrc
  else if dryRun then zshrc
  else zshrc ++ '\n' :: (block ++ ['\n'])

/-- Number of positions of `f` at which `g` matches: occurrences of the
substring `g` in `f`, overlapping ones counted. -/
def occCount (f g : List Char) : Nat :=
  (f.tails.filter (fun s => g.isPrefixOf s)).length

/-- Claim C5 (amended): a guard-marked configuration append is idempotent:
for every guard string and block containing that guard, a second
`appendToZshrc` call on a file produced by a first call leaves the file
unchanged — so repeated invocations append the block at most once and the
file thereafter contains the guard marker.  The original "exactly once"
count does not hold for every initial file (see the counterexample). -/
theorem appendToZshrc_idempotent (guardString block f : List Char)
    (hg : fileContains block guardString = true) :
    appendToZshrc false guardString block
        (appendToZshrc false guardString block f) =
      appendToZshrc false guardString block f ∧
    fileContains (appendToZshrc false guardString block f) guardString = true := by
  by_cases hf : fileContains f guardString = true
  · constructor
    · simp [appendToZshrc, hf]
    · simp [appendToZshrc, hf]
  · have h1 : appendToZshrc false guardString block f = f ++ '\n' :: (block ++ ['\n']) := by
      simp [appendToZshrc, hf]
    have hcont : fileContains (f ++ '\n' :: (block ++ ['\n'])) guardString = true :=
      fileContains_append_right f guardString
        (fileContains_append_right ['\n'] guardString
          (fileContains_append_left guardString hg))
    rw [h1]
    refine ⟨?_, hcont⟩
    simp [appendToZshrc, hcont]

/-- Witness for C5 (amended claim): guard `"g"`, block `"gx"` containing it,
empty initial file. -/
theorem appendToZshrc_idempotent_witness :
    fileContains ['g', 'x'] ['g'] = true ∧
    (appendToZshrc false ['g'] ['g', 'x'] (appendToZshrc false ['g'] ['g', 'x'] []) =
        appendToZshrc false ['g'] ['g', 'x'] [] ∧
      fileContains (appendToZshrc false ['g'] ['g', 'x'] []) ['g'] = true) :=
  ⟨by decide, appendToZshrc_idempotent ['g'] ['g', 'x'] [] (by decide)⟩

/-- Counterexample to C5 as stated: guard `"G"`, block `"G"` (a block
containing the guard) and the pre-existing file `"GG"`.  Both invocations
leave the file unchanged, yet afterwards it contains the guard marker twice,
not exactly once. -/
theorem appendToZshrc_exactly_once_cex :
    fileContains ['G'] ['G'] = true ∧
    appendToZshrc false ['G'] ['G'] (appendToZshrc false ['G'] ['G'] ['G', 'G']) =
      ['G', 'G'] ∧
    occCount (appendToZshrc false ['G'] ['G']
        (appendToZshrc false ['G'] ['G'] ['G', 'G'])) ['G'] = 2 ∧
    (2 : Nat) ≠ 1 := by
  refine ⟨by decide, by decide, by decide, by decide⟩

/-- Guard marker of the Homebrew block of `writeBaseZshrcBlocks`. -/
def brewGuard : List Char := "# BEGIN: Homebrew".toList

/-- The Homebrew shellenv block of `writeBaseZshrcBlocks`. -/
def brewBlock : List Char :=
  ("# BEGIN: Homebrew\neval \"$(/opt/homebrew/bin/brew shellenv)\"\n# END: Homebrew").toList

/-- Guard marker of the pyenv block of `writeBaseZshrcBlocks`. -/
def pyenvGuard : List Char := "# BEGIN: pyenv".toList

/-- The pyenv init block of `writeBaseZshrcBlocks`. -/
def pyenvBlock : List Char :=
  ("# BEGIN: pyenv\nexport PYENV_ROOT=\"$HOME/.pyenv\"\nexport PATH=\"$PYENV_ROOT/bin:$PATH\"\neval \"$(pyenv init -)\"\neval \"$(pyenv virtualenv-init -)\"\n# END: pyenv").toList

/-- `writeBaseZshrcBlocks` of installer.go: append the guard-marked Homebrew
and pyenv init blocks, in that order. -/
def writeBaseZshrcBlocks (dryRun : Bool) (zshrc : List Char) : List Char :=
  appendToZshrc dryRun pyenvGuard pyenvBlock
    (appendToZshrc dryRun brewGuard brewBlock zshrc)

/-- Guard marker of the sleep-controls block of `configureNoSleepAliases`. -/
def sleepGuard : List Char := "# BEGIN: Sleep Controls".toList

/-- `configureNoSleepAliases` of the preflight code: append a guard-marked
sleep-alias block; the block body is formatted from probed `pmset` values
(an external read), so it is a parameter here. -/
def configureNoSleepAliases (dryRun : Bool) (sleepBlock zshrc : List Char) : List Char :=
  appendToZshrc dryRun sleepGuard sleepBlock zshrc

section Pipeline

variable {σ : Type}

/-- Outcome of executing one external command on the abstract machine state:
new machine state, combined output, and whether the command succeeded (an
external oracle). -/
def CmdExec (σ : Type) : Type :=
  String → List String → σ → σ × String × Bool

/-- `runCmd` of the command helpers: in dry-run mode, log the intended
command and return success without executing anything; otherwise execute and
wrap a failure together with the captured output.  The middle component
lists the external commands actually executed. -/
def runCmd (dryRun : Bool) (ex : CmdExec σ) (name : String) (args : List String)
    (m : σ) : σ × List (String × List String) × Except String String :=
  if dryRun then (m, [], .ok "")
  else
    ((ex name args m).1, [(name, args)],
      if (ex name args m).2.2 then .ok (ex name args m).2.1
      else .error (name ++ " failed:\n" ++ (ex name args m).2.1))

/-- The `.zshrc` preparation steps of `main` that run before any phase:
`writeBaseZshrcBlocks` then `configureNoSleepAliases`. -/
def prepZshrc (dryRun : Bool) (sleepBlock : List Char) (w : World σ) : World σ :=
  ⟨configureNoSleepAliases dryRun sleepBlock (writeBaseZshrcBlocks dryRun w.zshrc),
    w.runState, w.mach⟩

/-- The install pipeline of `main` for a resolved tool list: write the base
`.zshrc` blocks and the sleep-alias block, split the plan into phases, run
phase 1, then — after the VPN gate, which mutates no state — run phase 3.
Returns the final world, the dispatched installers, and the exit code
(1 as soon as a phase fails). -/
def pipeline (dryRun : Bool) (inst : Inst σ) (sleepBlock : List Char)
    (guid : String) (tools : List ToolID) (w : World σ) :
    World σ × List ToolID × Nat :=
  match (runPhase dryRun inst (classify tools).1 guid
      (prepZshrc dryRun sleepBlock w)).2.2 with
  | .error _ =>
    ((runPhase dryRun inst (classify tools).1 guid (prepZshrc dryRun sleepBlock w)).1,
      (runPhase dryRun inst (classify tools).1 guid (prepZshrc dryRun sleepBlock w)).2.1,
      1)
  | .ok _ =>
    ((runPhase dryRun inst (classify tools).2 guid
        (runPhase dryRun inst (classify tools).1 guid
          (prepZshrc dryRun sleepBlock w)).1).1,
      (runPhase dryRun inst (classify tools).1 guid
          (prepZshrc dryRun sleepBlock w)).2.1 ++
        (runPhase dryRun inst (classify tools).2 guid
          (runPhase dryRun inst (classify tools).1 guid
            (prepZshrc dryRun sleepBlock w)).1).2.1,
      match (runPhase dryRun inst (classify tools).2 guid
          (runPhase dryRun inst (classify tools).1 guid
            (prepZshrc dryRun sleepBlock w)).1).2.2 with
      | .error _ => 1
      | .ok _ => 0)

theorem appendToZshrc_dryRun (g b z : List Char) : appendToZshrc true g b z = z := by
  by_cases h : fileContains z g = true <;> simp [appendToZshrc, h]

theorem runPhase_dryRun (inst : Inst σ) (guid : String) :
    ∀ (tools : List ToolID) (w : World σ),
      runPhase true inst tools guid w = (w, [], .ok ()) := by
  intro tools
  induction tools with
  | nil => intro w; rfl
  | cons t rest ihr =>
    intro w
    simp [runPhase, runTool, ihr]

end Pipeline

/-- Claim C6: with simulate-only mode active, the install path short-circuits
before dispatching any installer, `runCmd` executes no external command and
reports success, run state is never updated, and iterating the full pipeline
any number of times leaves the world — persisted run state, `.zshrc` and the
abstract machine state — unchanged. -/
theorem pipeline_dry_run_pure {σ : Type} (inst : Inst σ) (sleepBlock : List Char)
    (guid : String) (tools : List ToolID) :
    (∀ w : World σ, pipeline true inst sleepBlock guid tools w = (w, [], 0)) ∧
    (∀ (n : Nat) (w : World σ),
      (fun w => (pipeline true inst sleepBlock guid tools w).1)^[n] w = w) ∧
    (∀ (ex : CmdExec σ) (name : String) (args : List String) (m : σ),
      runCmd true ex name args m = (m, [], .ok "")) := by
  have hw0 : ∀ w : World σ, prepZshrc true sleepBlock w = w := by
    intro w
    simp [prepZshrc, writeBaseZshrcBlocks, configureNoSleepAliases, appendToZshrc_dryRun]
  have hpipe : ∀ w : World σ, pipeline true inst sleepBlock guid tools w = (w, [], 0) := by
    intro w
    simp [pipeline, hw0, runPhase_dryRun]
  refine ⟨hpipe, ?_, fun ex name args m => rfl⟩
  intro n
  induction n with
  | zero => intro w; rfl
  | succ k ihk =>
    intro w
    rw [Function.iterate_succ_apply]
    have hstep : (pipeline true inst sleepBlock guid tools w).1 = w := by
      rw [hpipe]
    rw [hstep]
    exact ihk w

/-- Witness for C6: the dry-run pipeline over the full GNOC tool selection
with a trivial installer semantics, iterated twice, changes nothing. -/
theorem pipeline_dry_run_pure_witness :
    (∀ w : World Unit, pipeline true instAlwaysOk ['s'] "guid"
      [ToolID.gnoc_helper, ToolID.xcode] w = (w, [], 0)) ∧
    (∀ (n : Nat) (w : World Unit),
      (fun w => (pipeline true instAlwaysOk ['s'] "guid"
        [ToolID.gnoc_helper, ToolID.xcode] w).1)^[n] w = w) ∧
    (∀ (ex : CmdExec Unit) (name : String) (args : List String) (m : Unit),
      runCmd true ex name args m = (m, [], .ok "")) :=
  pipeline_dry_run_pure instAlwaysOk ['s'] "guid" [ToolID.gnoc_helper, ToolID.xcode]

/-- The internal Oracle hosts polled by `waitForVPN`. -/
def vpnHosts : List String :=
  ["artifactory.oci.oraclecorp.com:443", "bitbucket.oci.oraclecorp.com:7999"]

/-- The polling loop of `waitForVPN` (installer.go): round `k` probes each
host with a direct TCP connection attempt whose outcome is given by the
oracle `dial`; a round in which every host connects unblocks the gate,
otherwise the loop sleeps for the retry interval and starts the next round.
The Go loop is unbounded; `fuel` bounds the rounds modelled, and the result
is the round at which the gate unblocked. -/
def waitForVPNLoop (dial : Nat → String → Bool) : Nat → Nat → Option Nat
  | 0, _ => none
  | fuel + 1, k =>
    if vpnHosts.all (fun h => dial k h) then some k
    else waitForVPNLoop dial fuel (k + 1)

/-- `waitForVPN` of installer.go: in dry-run mode return immediately without
polling (no polling round unblocked the gate); otherwise poll from round 0. -/
def waitForVPN (dryRun : Bool) (dial : Nat → String → Bool) (fuel : Nat) : Option Nat :=
  if dryRun then none else waitForVPNLoop dial fuel 0

theorem waitForVPNLoop_succ (dial : Nat → String → Bool) (n k : Nat) :
    waitForVPNLoop dial (n + 1) k =
      if vpnHosts.all (fun h => dial k h) then some k
      else waitForVPNLoop dial n (k + 1) := rfl

theorem waitForVPNLoop_spec (dial : Nat → String → Bool) :
    ∀ (fuel start k : Nat), waitForVPNLoop dial fuel start = some k →
      start ≤ k ∧ vpnHosts.all (fun h => dial k h) = true ∧
      ∀ j, start ≤ j → j < k → vpnHosts.all (fun h => dial j h) = false := by
  intro fuel
  induction fuel with
  | zero => intro start k h; exact absurd h (by simp [waitForVPNLoop])
  | succ n ihn =>
    intro start k h
    rw [waitForVPNLoop_succ] at h
    by_cases hall : vpnHosts.all (fun h => dial start h) = true
    · rw [if_pos hall] at h
      obtain rfl : start = k := Option.some.inj h
      exact ⟨le_refl _, hall,
        fun j hj1 hj2 => absurd (lt_of_le_of_lt hj1 hj2) (lt_irrefl _)⟩
    · rw [if_neg hall] at h
      obtain ⟨h1, h2, h3⟩ := ihn (start + 1) k h
      refine ⟨le_trans (Nat.le_succ start) h1, h2, ?_⟩
      intro j hj1 hj2
      rcases Nat.eq_or_lt_of_le hj1 with rfl | hlt
      · exact Bool.eq_false_iff.mpr hall
      · exact h3 j hlt hj2

/-- Claim C7: the network transition gate unblocks only at the end of a
polling round in which every probed private-network endpoint accepted a
direct connection; every earlier round had at least one failing endpoint and
restarted the wait after the retry interval. -/
theorem waitForVPN_all_up (dial : Nat → String → Bool) (fuel k : Nat)
    (h : waitForVPN false dial fuel = some k) :
    vpnHosts.all (fun h => dial k h) = true ∧
    ∀ j < k, vpnHosts.all (fun h => dial j h) = false := by
  have h' : waitForVPNLoop dial fuel 0 = some k := h
  obtain ⟨_, h2, h3⟩ := waitForVPNLoop_spec dial fuel 0 k h'
  exact ⟨h2, fun j hj => h3 j (Nat.zero_le j) hj⟩

/-- A concrete probe oracle for the C7 witness: every endpoint connects from
round 2 on, nothing connects earlier. -/
def dialFromRound2 : Nat → String → Bool := fun r _ => decide (2 ≤ r)

/-- Witness for C7: under `dialFromRound2` the gate unblocks at round 2,
rounds 0 and 1 having failed. -/
theorem waitForVPN_all_up_witness :
    waitForVPN false dialFromRound2 5 = some 2 ∧
    (vpnHosts.all (fun h => dialFromRound2 2 h) = true ∧
      ∀ j < 2, vpnHosts.all (fun h => dialFromRound2 j h) = false) :=
  ⟨by decide, waitForVPN_all_up dialFromRound2 5 2 (by decide)⟩

/-- `strings.Split(raw, ",")` on character lists. -/
def splitComma : List Char → List (List Char)
  | [] => [[]]
  | c :: rest =>
    if c = ',' then [] :: splitComma rest
    else
      match splitComma rest with
      | [] => [[c]]
      | g :: gs => (c :: g) :: gs

/-- `strings.TrimSpace` (whitespace at both ends) on character lists. -/
def trimChars (l : List Char) : List Char :=
  ((l.dropWhile fun c => c.isWhitespace).reverse.dropWhile fun c => c.isWhitespace).reverse

/-- `validToolIDs` of installer.go: the `--only` name → toolID table. -/
def validToolIDs (s : List Char) : Option ToolID :=
  if s = "xcode".toList then some .xcode
  else if s = "homebrew".toList then some .homebrew
  else if s = "pyenv".toList then some .pyenv
  else if s = "python313".toList then some .python313
  else if s = "python396".toList then some .python396
  else if s = "pyenv_venv_ncpcli".toList then some .pyenv_venv_ncpcli
  else if s = "iterm2".toList then some .iterm2
  else if s = "allproxy".toList then some .allproxy
  else if s = "sparta_pki".toList then some .sparta_pki
  else if s = "hops_cli".toList then some .hops_cli
  else if s = "gnoc_helper".toList then some .gnoc_helper
  else if s = "stencil".toList then some .stencil
  else if s = "silencer".toList then some .silencer
  else if s = "ncpcli".toList then some .ncpcli
  else if s = "jit_pass".toList then some .jit_pass
  else none

/-- The entries of a `--only` flag value: split on commas, trim spaces. -/
def onlyEntries (raw : List Char) : List (List Char) :=
  (splitComma raw).map trimChars

/-- `parseOnlyFlag` of main.go: collect the valid tool ids in order (unknown
names are reported and skipped) and resolve them. -/
def parseOnlyFlag (raw : List Char) : List ToolID :=
  resolveTools depMap 16 ((onlyEntries raw).filterMap validToolIDs)

/-- The unknown names that `parseOnlyFlag` reports to stderr. -/
def reportedUnknown (raw : List Char) : List (List Char) :=
  (onlyEntries raw).filter (fun s => (validToolIDs s).isNone)

/-- The `--only` path of `main`: the base `.zshrc` blocks and the sleep
aliases are written during preflight, then the flag is parsed; with no valid
tool the process exits with code 1 before any phase runs, otherwise the
phases of the pipeline run. -/
def mainOnly {σ : Type} (dryRun : Bool) (inst : Inst σ) (sleepBlock : List Char)
    (guid : String) (raw : List Char) (w : World σ) : World σ × List ToolID × Nat :=
  if parseOnlyFlag raw = [] then (prepZshrc dryRun sleepBlock w, [], 1)
  else pipeline dryRun inst sleepBlock guid (parseOnlyFlag raw) w

/-- Claim C8 (amended): every unknown identifier of the `--only` list is
reported and skipped — the resolved tool list derives only from the valid
names — and when no valid tool remains the process exits with code 1 having
dispatched no installer (installs nothing).  The original claim's "produces
no side effects" does not hold: the base `.zshrc` blocks are written before
flag validation (see the counterexample). -/
theorem parseOnly_unknown_skipped {σ : Type} (dryRun : Bool) (inst : Inst σ)
    (sleepBlock : List Char) (guid : String) (raw : List Char) (w : World σ) :
    (∀ s ∈ onlyEntries raw, validToolIDs s = none → s ∈ reportedUnknown raw) ∧
    (∀ u ∈ parseOnlyFlag raw, ∃ s ∈ onlyEntries raw, ∃ t, validToolIDs s = some t ∧
      Reach depMap t u) ∧
    (parseOnlyFlag raw = [] →
      (mainOnly dryRun inst sleepBlock guid raw w).2.1 = [] ∧
      (mainOnly dryRun inst sleepBlock guid raw w).2.2 = 1) := by
  have hrkdec : ∀ t, ∀ d ∈ depMap t, toolRank d < toolRank t := by decide
  have hrk16 : ∀ t : ToolID, toolRank t < 16 := by decide
  refine ⟨?_, ?_, ?_⟩
  · intro s hs hnone
    exact List.mem_filter.mpr ⟨hs, by simp [hnone]⟩
  · intro u hu
    obtain ⟨_, _, _, hmem⟩ := resolve_spec depMap toolRank hrkdec 16
      ((onlyEntries raw).filterMap validToolIDs) (fun t _ => hrk16 t)
    obtain ⟨t, ht, hr⟩ := (hmem u).mp hu
    obtain ⟨s, hs, hvs⟩ := List.mem_filterMap.mp ht
    exact ⟨s, hs, t, hvs, hr⟩
  · intro hempty
    constructor <;> simp [mainOnly, hempty]

/-- Witness for C8 (amended claim): `--only=unknownTool` is reported as
unknown, and the run exits with code 1 dispatching no installer. -/
theorem parseOnly_unknown_skipped_witness :
    ("unknownTool".toList ∈ reportedUnknown "unknownTool".toList) ∧
    (mainOnly false instAlwaysOk ['s'] "guid" "unknownTool".toList
      ⟨[], ⟨[]⟩, ()⟩).2.1 = [] ∧
    (mainOnly false instAlwaysOk ['s'] "guid" "unknownTool".toList
      ⟨[], ⟨[]⟩, ()⟩).2.2 = 1 :=
  ⟨(parseOnly_unknown_skipped false instAlwaysOk ['s'] "guid" "unknownTool".toList
      ⟨[], ⟨[]⟩, ()⟩).1 "unknownTool".toList (by decide) (by decide),
    ((parseOnly_unknown_skipped false instAlwaysOk ['s'] "guid" "unknownTool".toList
      ⟨[], ⟨[]⟩, ()⟩).2.2 (by decide)).1,
    ((parseOnly_unknown_skipped false instAlwaysOk ['s'] "guid" "unknownTool".toList
      ⟨[], ⟨[]⟩, ()⟩).2.2 (by decide)).2⟩

/-- Counterexample to C8 as stated: with `--only=unknownTool` the process
exits non-zero and installs nothing, but it does produce side effects — the
base `.zshrc` blocks were already appended to an initially empty `.zshrc`
before flag validation. -/
theorem parseOnly_side_effects_cex :
    (mainOnly false instAlwaysOk ['s'] "guid" "unknownTool".toList
      ⟨[], ⟨[]⟩, ()⟩).2.2 = 1 ∧
    ¬((mainOnly false instAlwaysOk ['s'] "guid" "unknownTool".toList
      ⟨[], ⟨[]⟩, ()⟩).1.zshrc = []) := by
  refine ⟨by decide, by decide⟩
